import Mathlib

/-!
Verification development for the three record-keeping scripts in this
repository (`Expense_Tracker_CLI.py`, `Habit_Tracker.py`,
`To-Do_List_Application.py`).

The Python core functions are shallowly embedded as Lean definitions:
  * calendar dates (`datetime.date`) become the `CalDate` structure, with
    `predDate` modelling subtraction of `timedelta(days=1)` by proleptic
    Gregorian rules, exactly as Python's `date` arithmetic behaves on the
    year/month/day representation;
  * each script's mutable global list plus its JSON file becomes an explicit
    state record (`EState`, `HState`, `TState`) holding the in-memory list,
    the decoded content of the persisted file, and a count of file writes
    (each `save_*` call in the source is one full-file rewrite);
  * interactive input that the source validates in a retry loop (amounts,
    categories, ids) appears as a function argument, since the loop only
    terminates once a valid value is supplied;
  * `float` amounts are modelled as exact rationals (`ℚ`); the claims under
    study concern which records contribute to which totals, not binary
    floating-point rounding.
-/

/-- Calendar date, modelling Python's `datetime.date` by its
year/month/day components. -/
structure CalDate where
  year : Int
  month : Nat
  day : Nat
deriving DecidableEq, Repr

/-- Gregorian leap-year test, as used by Python's `datetime` module. -/
def isLeap (y : Int) : Bool :=
  y % 4 == 0 && (y % 100 != 0 || y % 400 == 0)

/-- Number of days in a month of a given year (Gregorian calendar). -/
def daysInMonth (y : Int) (m : Nat) : Nat :=
  if m = 2 then (if isLeap y then 29 else 28)
  else if m = 4 ∨ m = 6 ∨ m = 9 ∨ m = 11 then 30
  else 31

/-- The previous calendar day: the embedding of `d - timedelta(days=1)`
on the year/month/day representation. -/
def predDate (d : CalDate) : CalDate :=
  if d.day > 1 then ⟨d.year, d.month, d.day - 1⟩
  else if d.month > 1 then ⟨d.year, d.month - 1, daysInMonth d.year (d.month - 1)⟩
  else ⟨d.year - 1, 12, 31⟩

/-- Strict chronological order on dates (lexicographic on
year, month, day), the order underlying Python's `date` comparison. -/
def dateLtb (a b : CalDate) : Bool :=
  decide (a.year < b.year) ||
    (decide (a.year = b.year) &&
      (decide (a.month < b.month) ||
        (decide (a.month = b.month) && decide (a.day < b.day))))

/-- Non-strict chronological order on dates. -/
def dateLeb (a b : CalDate) : Bool :=
  dateLtb a b || decide (a = b)

theorem dateLtb_iff (a b : CalDate) :
    dateLtb a b = true ↔
      (a.year < b.year ∨ (a.year = b.year ∧
        (a.month < b.month ∨ (a.month = b.month ∧ a.day < b.day)))) := by
  simp [dateLtb]

theorem dateLtb_irrefl (a : CalDate) : dateLtb a a = false := by
  simp [dateLtb]

theorem dateLtb_trans {a b c : CalDate} (hab : dateLtb a b = true)
    (hbc : dateLtb b c = true) : dateLtb a c = true := by
  rw [dateLtb_iff] at hab hbc ⊢
  omega

theorem dateLtb_asymm {a b : CalDate} (hab : dateLtb a b = true) :
    dateLtb b a = false := by
  rw [dateLtb_iff] at hab
  rw [Bool.eq_false_iff]
  intro hba
  rw [dateLtb_iff] at hba
  omega

theorem dateLtb_ne {a b : CalDate} (hab : dateLtb a b = true) : a ≠ b := by
  intro h
  subst h
  rw [dateLtb_irrefl] at hab
  exact Bool.false_ne_true hab

/-- Moving one day backward always moves strictly earlier in
chronological order. -/
theorem predDate_ltb (d : CalDate) : dateLtb (predDate d) d = true := by
  rcases d with ⟨y, m, dd⟩
  simp only [predDate]
  split_ifs with h1 h2
  · rw [dateLtb_iff]
    dsimp only
    omega
  · rw [dateLtb_iff]
    dsimp only
    simp only at h1 h2
    omega
  · rw [dateLtb_iff]
    dsimp only
    omega

theorem dateLeb_refl (a : CalDate) : dateLeb a a = true := by
  simp [dateLeb]

theorem dateLeb_of_leb_pred {x d : CalDate}
    (h : dateLeb x (predDate d) = true) : dateLeb x d = true := by
  rw [dateLeb, Bool.or_eq_true] at h ⊢
  rcases h with h | h
  · exact Or.inl (dateLtb_trans h (predDate_ltb d))
  · rw [decide_eq_true_eq] at h
    subst h
    exact Or.inl (predDate_ltb d)

theorem not_dateLeb_pred (d : CalDate) : dateLeb d (predDate d) = false := by
  rw [dateLeb, Bool.or_eq_false_iff]
  constructor
  · exact dateLtb_asymm (predDate_ltb d)
  · rw [decide_eq_false_iff_not]
    intro h
    have := predDate_ltb d
    rw [← h] at this
    rw [dateLtb_irrefl] at this
    exact Bool.false_ne_true this

/-- Counting elements that satisfy a weaker predicate strictly exceeds the
count for a stronger one as soon as one listed element separates them. -/
theorem countP_lt_of {α : Type} (l : List α) (p q : α → Bool)
    (hpq : ∀ x, p x = true → q x = true) (a : α) (ha : a ∈ l)
    (hqa : q a = true) (hpa : p a = false) :
    l.countP p < l.countP q := by
  induction l with
  | nil => cases ha
  | cons b t ih =>
    rw [List.countP_cons, List.countP_cons]
    rcases List.mem_cons.mp ha with hb | ht
    · subst hb
      rw [hpa, hqa]
      simp only [Bool.false_eq_true, if_false, if_true]
      have hle : t.countP p ≤ t.countP q := by
        apply List.countP_mono_left
        intro x _ hx
        exact hpq x hx
      omega
    · have := ih ht
      have hmono : (if p b = true then 1 else 0) ≤ (if q b = true then 1 else 0) := by
        by_cases hb : p b = true
        · rw [if_pos hb, if_pos (hpq b hb)]
        · rw [if_neg hb]
          exact Nat.zero_le _
      omega

/-- Walking `k` days backward from a date: `predIter k d` is the date the
streak loop inspects on its `k`-th iteration. -/
def predIter : Nat → CalDate → CalDate
  | 0, d => d
  | k + 1, d => predIter k (predDate d)

theorem predIter_ltb (d : CalDate) : ∀ k : Nat,
    dateLtb (predIter (k + 1) d) (predIter k d) = true := by
  intro k
  induction k generalizing d with
  | zero => exact predDate_ltb d
  | succ n ih => exact ih (predDate d)

theorem predIter_lt_of_lt (d : CalDate) {i j : Nat} (h : i < j) :
    dateLtb (predIter j d) (predIter i d) = true := by
  induction j with
  | zero => omega
  | succ n ih =>
    rcases Nat.lt_succ_iff_lt_or_eq.mp h with h' | h'
    · exact dateLtb_trans (predIter_ltb d n) (ih h')
    · subst h'
      exact predIter_ltb d i

theorem predIter_injOn (d : CalDate) {i j : Nat} (h : i ≠ j) :
    predIter i d ≠ predIter j d := by
  rcases Nat.lt_or_ge i j with hij | hij
  · intro he
    exact dateLtb_ne (predIter_lt_of_lt d hij) he.symm
  · have : j < i := by omega
    exact dateLtb_ne (predIter_lt_of_lt d this)

/-- The backward-walking loop of `get_streak` in `Habit_Tracker.py`:
`while current_day in completed_set: streak += 1; current_day -= timedelta(days=1)`.
Termination: each iteration consumes one element of the completion list
that is chronologically no later than the current day. -/
def streakAux (s : List CalDate) (d : CalDate) : Nat :=
  if h : d ∈ s then streakAux s (predDate d) + 1 else 0
termination_by s.countP (fun x => dateLeb x d)
decreasing_by
  exact countP_lt_of s (fun x => dateLeb x (predDate d)) (fun x => dateLeb x d)
    (fun x => dateLeb_of_leb_pred) d h (dateLeb_refl d) (not_dateLeb_pred d)

theorem streakAux_of_not_mem (s : List CalDate) (d : CalDate) (h : d ∉ s) :
    streakAux s d = 0 := by
  rw [streakAux]
  rw [dif_neg h]

theorem streakAux_of_mem (s : List CalDate) (d : CalDate) (h : d ∈ s) :
    streakAux s d = streakAux s (predDate d) + 1 := by
  conv_lhs => rw [streakAux]
  rw [dif_pos h]

theorem streakAux_spec_aux : ∀ (m : Nat) (s : List CalDate) (d : CalDate),
    s.countP (fun x => dateLeb x d) ≤ m →
    (∀ k, k < streakAux s d → predIter k d ∈ s) ∧
      predIter (streakAux s d) d ∉ s := by
  intro m
  induction m with
  | zero =>
    intro s d hm
    have hd : d ∉ s := by
      intro hds
      have : 0 < s.countP (fun x => dateLeb x d) :=
        List.countP_pos_iff.mpr ⟨d, hds, dateLeb_refl d⟩
      omega
    rw [streakAux_of_not_mem s d hd]
    exact ⟨fun k hk => absurd hk (by omega), hd⟩
  | succ n ih =>
    intro s d hm
    by_cases hd : d ∈ s
    · rw [streakAux_of_mem s d hd]
      have hlt : s.countP (fun x => dateLeb x (predDate d)) <
          s.countP (fun x => dateLeb x d) :=
        countP_lt_of s (fun x => dateLeb x (predDate d)) (fun x => dateLeb x d)
          (fun x => dateLeb_of_leb_pred) d hd (dateLeb_refl d) (not_dateLeb_pred d)
      obtain ⟨h1, h2⟩ := ih s (predDate d) (by omega)
      constructor
      · intro k hk
        cases k with
        | zero => exact hd
        | succ j => exact h1 j (by omega)
      · exact h2
    · rw [streakAux_of_not_mem s d hd]
      exact ⟨fun k hk => absurd hk (by omega), hd⟩

/-- Full behavioural characterisation of the backward streak walk: every day
inspected during the counted run is a completion day, and the day right after
the run (walking backwards) is not. -/
theorem streakAux_spec (s : List CalDate) (d : CalDate) :
    (∀ k, k < streakAux s d → predIter k d ∈ s) ∧
      predIter (streakAux s d) d ∉ s :=
  streakAux_spec_aux (s.countP (fun x => dateLeb x d)) s d le_rfl

/-- Running maximum over a list of ids, as `max(...)` computes over a
nonempty generator in Python. -/
def maxIntAux (m : Int) : List Int → Int
  | [] => m
  | x :: xs => maxIntAux (max m x) xs

/-- `get_next_id` as both `Expense_Tracker_CLI.py` and `Habit_Tracker.py`
define it, factored over the list of ids: 1 for an empty collection,
otherwise the maximum id plus 1. -/
def nextIdOfIds : List Int → Int
  | [] => 1
  | x :: xs => maxIntAux x xs + 1

theorem le_maxIntAux (m : Int) (l : List Int) : m ≤ maxIntAux m l := by
  induction l generalizing m with
  | nil => exact le_rfl
  | cons x xs ih => exact le_trans (le_max_left m x) (ih (max m x))

theorem maxIntAux_mem_le {x : Int} {l : List Int} (m : Int) (h : x ∈ l) :
    x ≤ maxIntAux m l := by
  induction l generalizing m with
  | nil => cases h
  | cons a as ih =>
    rcases List.mem_cons.mp h with ha | has
    · subst ha
      exact le_trans (le_max_right m x) (le_maxIntAux (max m x) as)
    · exact ih (max m a) has

theorem maxIntAux_cases (m : Int) (l : List Int) :
    maxIntAux m l = m ∨ ∃ x ∈ l, maxIntAux m l = x := by
  induction l generalizing m with
  | nil => exact Or.inl rfl
  | cons a as ih =>
    rcases ih (max m a) with h | ⟨x, hx, hmx⟩
    · rcases le_total m a with hma | ham
      · right
        exact ⟨a, List.mem_cons_self a as, by rw [maxIntAux, h, max_eq_right hma]⟩
      · left
        rw [maxIntAux, h, max_eq_left ham]
    · right
      exact ⟨x, List.mem_cons_of_mem a hx, hmx⟩

theorem nextIdOfIds_ub (l : List Int) : ∀ x ∈ l, x < nextIdOfIds l := by
  intro x hx
  cases l with
  | nil => cases hx
  | cons a as =>
    rw [nextIdOfIds]
    rcases List.mem_cons.mp hx with ha | has
    · subst ha
      have := le_maxIntAux x as
      omega
    · have := maxIntAux_mem_le a has
      omega

theorem nextIdOfIds_attained (l : List Int) (h : l ≠ []) :
    ∃ x ∈ l, x + 1 = nextIdOfIds l := by
  cases l with
  | nil => exact absurd rfl h
  | cons a as =>
    rw [nextIdOfIds]
    rcases maxIntAux_cases a as with hm | ⟨x, hx, hmx⟩
    · exact ⟨a, List.mem_cons_self a as, by rw [hm]⟩
    · exact ⟨x, List.mem_cons_of_mem a hx, by rw [hmx]⟩

theorem nextIdOfIds_eq_of (l : List Int) (h : l ≠ []) (n : Int)
    (hub : ∀ x ∈ l, x < n) (hat : ∃ x ∈ l, x + 1 = n) :
    nextIdOfIds l = n := by
  obtain ⟨e, he, hen⟩ := nextIdOfIds_attained l h
  obtain ⟨f, hf, hfn⟩ := hat
  have h1 := hub e he
  have h2 := nextIdOfIds_ub l f hf
  omega

namespace Habits

/-- One habit record, per `HABIT_MODEL` in `Habit_Tracker.py`: the stored
ISO date strings are represented by the calendar dates they denote (the
program only ever writes `date.isoformat()` output, which round-trips). -/
structure Habit where
  id : Int
  name : String
  created_on : CalDate
  completed_dates : List CalDate
deriving DecidableEq, Repr

/-- `get_next_id` of `Habit_Tracker.py`: 1 if no habits are tracked,
otherwise the largest stored id plus one, recomputed from the list. -/
def get_next_id (l : List Habit) : Int :=
  nextIdOfIds (l.map Habit.id)

/-- The record construction and append performed by `add_habit`. -/
def add_habit_list (l : List Habit) (name : String) (today : CalDate) :
    List Habit :=
  l ++ [⟨get_next_id l, name, today, []⟩]

/-- The scan-and-remove loop of `delete_habit`: removes the first habit
whose id matches, returning it; yields `none` when nothing matches. -/
def delete_habit_list : List Habit → Int → List Habit × Option Habit
  | [], _ => ([], none)
  | h :: t, i =>
    if h.id = i then (t, some h)
    else
      let p := delete_habit_list t i
      (h :: p.1, p.2)

/-- The scan of `mark_complete`: on the first habit whose id matches, either
report `false` (date already recorded, list untouched) or append today's
date and report `true`; `none` when no id matches. -/
def mark_complete_list : List Habit → Int → CalDate → List Habit × Option Bool
  | [], _, _ => ([], none)
  | h :: t, i, today =>
    if h.id = i then
      if today ∈ h.completed_dates then (h :: t, some false)
      else ({ h with completed_dates := h.completed_dates ++ [today] } :: t, some true)
    else
      let p := mark_complete_list t i today
      (h :: p.1, p.2)

/-- `get_streak` of `Habit_Tracker.py`; the wall-clock date read by
`date.today()` inside the function is the explicit `today` argument. -/
def get_streak (today : CalDate) (habit : Habit) : Nat :=
  streakAux habit.completed_dates today

/-- Program state of `Habit_Tracker.py`: the in-memory list, the decoded
content of `habits.json`, and how many full-file rewrites have happened. -/
structure HState where
  mem : List Habit
  file : List Habit
  writes : Nat
deriving DecidableEq, Repr

/-- `save_habits`: serialize the whole in-memory list over the file. -/
def save_habits (s : HState) : HState :=
  { s with file := s.mem, writes := s.writes + 1 }

/-- `add_habit` (with the prompted name and today's date as arguments):
append the new record, then persist. -/
def add_habit (s : HState) (name : String) (today : CalDate) : HState :=
  save_habits { s with mem := add_habit_list s.mem name today }

/-- `delete_habit` on the program state: persists only when a record
was removed. -/
def delete_habit (s : HState) (i : Int) : HState × Option Habit :=
  match delete_habit_list s.mem i with
  | (l', some x) => (save_habits { s with mem := l' }, some x)
  | (_, none) => (s, none)

/-- `clear_habits`: empty the list and persist the empty list. -/
def clear_habits (s : HState) : HState :=
  save_habits { s with mem := [] }

/-- `mark_complete` on the program state: persists only in the
newly-recorded case. -/
def mark_complete (s : HState) (i : Int) (today : CalDate) :
    HState × Option Bool :=
  match mark_complete_list s.mem i today with
  | (l', some true) => (save_habits { s with mem := l' }, some true)
  | (_, some false) => (s, some false)
  | (_, none) => (s, none)

theorem delete_habit_list_not_found (l : List Habit) (i : Int)
    (h : ∀ x ∈ l, x.id ≠ i) : delete_habit_list l i = (l, none) := by
  induction l with
  | nil => rfl
  | cons a t ih =>
    rw [delete_habit_list]
    rw [if_neg (h a (List.mem_cons_self a t))]
    rw [ih (fun x hx => h x (List.mem_cons_of_mem a hx))]

theorem delete_habit_list_found (pre post : List Habit) (x : Habit) (i : Int)
    (hpre : ∀ e ∈ pre, e.id ≠ i) (hx : x.id = i) :
    delete_habit_list (pre ++ x :: post) i = (pre ++ post, some x) := by
  induction pre with
  | nil =>
    rw [List.nil_append, delete_habit_list, if_pos hx, List.nil_append]
  | cons a t ih =>
    rw [List.cons_append, delete_habit_list]
    rw [if_neg (hpre a (List.mem_cons_self a t))]
    rw [ih (fun e he => hpre e (List.mem_cons_of_mem a he))]
    rfl

theorem mark_complete_list_not_found (l : List Habit) (i : Int) (today : CalDate)
    (h : ∀ x ∈ l, x.id ≠ i) : mark_complete_list l i today = (l, none) := by
  induction l with
  | nil => rfl
  | cons a t ih =>
    rw [mark_complete_list]
    rw [if_neg (h a (List.mem_cons_self a t))]
    rw [ih (fun x hx => h x (List.mem_cons_of_mem a hx))]

theorem mark_complete_list_already (pre post : List Habit) (x : Habit) (i : Int)
    (today : CalDate) (hpre : ∀ e ∈ pre, e.id ≠ i) (hx : x.id = i)
    (htoday : today ∈ x.completed_dates) :
    mark_complete_list (pre ++ x :: post) i today = (pre ++ x :: post, some false) := by
  induction pre with
  | nil =>
    rw [List.nil_append, mark_complete_list, if_pos hx, if_pos htoday]
  | cons a t ih =>
    rw [List.cons_append, mark_complete_list]
    rw [if_neg (hpre a (List.mem_cons_self a t))]
    rw [ih (fun e he => hpre e (List.mem_cons_of_mem a he))]

theorem mark_complete_list_new (pre post : List Habit) (x : Habit) (i : Int)
    (today : CalDate) (hpre : ∀ e ∈ pre, e.id ≠ i) (hx : x.id = i)
    (htoday : today ∉ x.completed_dates) :
    mark_complete_list (pre ++ x :: post) i today =
      (pre ++ { x with completed_dates := x.completed_dates ++ [today] } :: post,
        some true) := by
  induction pre with
  | nil =>
    rw [List.nil_append, mark_complete_list, if_pos hx, if_neg htoday, List.nil_append]
  | cons a t ih =>
    rw [List.cons_append, mark_complete_list]
    rw [if_neg (hpre a (List.mem_cons_self a t))]
    rw [ih (fun e he => hpre e (List.mem_cons_of_mem a he))]
    rfl

theorem mark_complete_list_nodup (l : List Habit) (i : Int) (today : CalDate)
    (h : ∀ x ∈ l, x.completed_dates.Nodup) :
    ∀ x ∈ (mark_complete_list l i today).1, x.completed_dates.Nodup := by
  induction l with
  | nil => intro x hx; cases hx
  | cons a t ih =>
    rw [mark_complete_list]
    by_cases hai : a.id = i
    · rw [if_pos hai]
      by_cases htd : today ∈ a.completed_dates
      · rw [if_pos htd]
        exact h
      · rw [if_neg htd]
        intro x hx
        rcases List.mem_cons.mp hx with hxa | hxt
        · subst hxa
          simp only
          rw [List.nodup_append]
          refine ⟨h a (List.mem_cons_self a t), List.nodup_singleton today, ?_⟩
          intro y hy hy1
          rw [List.mem_singleton] at hy1
          subst hy1
          exact htd hy
        · exact h x (List.mem_cons_of_mem a hxt)
    · rw [if_neg hai]
      intro x hx
      rcases List.mem_cons.mp hx with hxa | hxt
      · subst hxa
        exact h x (List.mem_cons_self x t)
      · exact ih (fun y hy => h y (List.mem_cons_of_mem a hy)) x hxt

end Habits

namespace Expenses

/-- One expense record, per `EXPENSE_MODEL` in `Expense_Tracker_CLI.py`.
Amounts are the exact rationals the validated `float` input denotes; the
`notes` field is the reserved always-empty list. -/
structure Expense where
  id : Int
  name : String
  amount : ℚ
  category : String
  created_on : CalDate
  notes : List String
deriving DecidableEq, Repr

/-- The `CATEGORIES` tuple of `Expense_Tracker_CLI.py`, in source order. -/
def CATEGORIES : List String :=
  ["Housing", "Food", "Transportation", "Utilities", "Healthcare",
    "Savings", "Debt", "Shopping", "Entertainment"]

/-- `get_next_id` of `Expense_Tracker_CLI.py`: 1 if the list is empty,
otherwise the largest stored id plus one, recomputed from the list. -/
def get_next_id (l : List Expense) : Int :=
  nextIdOfIds (l.map Expense.id)

/-- The record construction and append performed by `add_expense` (name,
validated amount and category, and today's date are its inputs). -/
def add_expense_list (l : List Expense) (name : String) (amount : ℚ)
    (category : String) (today : CalDate) : List Expense :=
  l ++ [⟨get_next_id l, name, amount, category, today, []⟩]

/-- The scan-and-remove loop of `delete_expense`: removes the first
expense whose id matches and returns it; `none` when nothing matches. -/
def delete_expense_list : List Expense → Int → List Expense × Option Expense
  | [], _ => ([], none)
  | e :: t, i =>
    if e.id = i then (t, some e)
    else
      let p := delete_expense_list t i
      (e :: p.1, p.2)

/-- Program state of `Expense_Tracker_CLI.py`: in-memory list, decoded
content of `expenses.json`, and the number of full-file rewrites. -/
structure EState where
  mem : List Expense
  file : List Expense
  writes : Nat
deriving DecidableEq, Repr

/-- `save_to_expense`: serialize the whole in-memory list over the file. -/
def save_to_expense (s : EState) : EState :=
  { s with file := s.mem, writes := s.writes + 1 }

/-- `add_expense` on the program state: append the new record, persist. -/
def add_expense (s : EState) (name : String) (amount : ℚ) (category : String)
    (today : CalDate) : EState :=
  save_to_expense { s with mem := add_expense_list s.mem name amount category today }

/-- `delete_expense` on the program state: persists only on removal. -/
def delete_expense (s : EState) (i : Int) : EState × Option Expense :=
  match delete_expense_list s.mem i with
  | (l', some x) => (save_to_expense { s with mem := l' }, some x)
  | (_, none) => (s, none)

/-- `clear_all_expense`: empty the list and persist the empty list. -/
def clear_all_expense (s : EState) : EState :=
  save_to_expense { s with mem := [] }

/-- Month/year filter of `view_monthly_report`: does the record's creation
date fall in the same calendar month and year as the reference date? -/
def sameMonth (today : CalDate) (e : Expense) : Bool :=
  decide (e.created_on.month = today.month) &&
    decide (e.created_on.year = today.year)

/-- `category_totals[category] += amount` on the totals dictionary,
represented as an association list in its insertion (= `CATEGORIES`) order;
`none` is Python's `KeyError` on a category absent from the dictionary. -/
def updateCat : List (String × ℚ) → String → ℚ → Option (List (String × ℚ))
  | [], _, _ => none
  | (c, t) :: rest, cat, amt =>
    if c = cat then some ((c, t + amt) :: rest)
    else (updateCat rest cat amt).map (fun r => (c, t) :: r)

/-- One iteration of the report loop of `view_monthly_report`: skip
records outside the reference month, otherwise add the amount to the
record's category total and to the running grand total. -/
def reportStep (today : CalDate) (acc : List (String × ℚ) × ℚ) (e : Expense) :
    Option (List (String × ℚ) × ℚ) :=
  if sameMonth today e then
    (updateCat acc.1 e.category e.amount).map (fun ts => (ts, acc.2 + e.amount))
  else
    some acc

/-- `view_monthly_report` of `Expense_Tracker_CLI.py`, modelling the report
it prints: the per-category totals (initialised to 0 for every category of
`CATEGORIES`, in that order) and the grand total for the month of the
reference date. The reference date is the value `date.today()` returns
inside the function. An empty collection takes the early
`"No expenses recorded yet."` return, producing no report (`none`). -/
def view_monthly_report (today : CalDate) (tracked : List Expense) :
    Option (List (String × ℚ) × ℚ) :=
  match tracked with
  | [] => none
  | _ =>
    List.foldlM (reportStep today)
      ((CATEGORIES.map fun c => (c, (0 : ℚ))), (0 : ℚ)) tracked

/-- Sum of month-matching amounts in one category (specification-side
closed form for what the report loop accumulates per category). -/
def catSum (today : CalDate) (c : String) (l : List Expense) : ℚ :=
  ((l.filter fun e => sameMonth today e && decide (e.category = c)).map
    Expense.amount).sum

/-- Sum of all month-matching amounts (specification-side closed form for
the grand total). -/
def monthTotal (today : CalDate) (l : List Expense) : ℚ :=
  ((l.filter fun e => sameMonth today e).map Expense.amount).sum

/-- One user-level mutating request against the expense store: an insert
with its prompted payload, or a delete-by-id. -/
inductive EOp
  | ins (name : String) (amount : ℚ) (category : String) (today : CalDate)
  | del (i : Int)
deriving DecidableEq, Repr

/-- Observable id events of a run: the id `get_next_id` hands to an
insert, and the id a successful delete frees. -/
inductive Event
  | assigned (i : Int)
  | freed (i : Int)
deriving DecidableEq, Repr

/-- The id events generated by running a sequence of inserts and deletes
against the in-memory list, starting from `s`. -/
def eTrace (s : List Expense) : List EOp → List Event
  | [] => []
  | EOp.ins n a c d :: ops =>
    Event.assigned (get_next_id s) :: eTrace (add_expense_list s n a c d) ops
  | EOp.del i :: ops =>
    match delete_expense_list s i with
    | (s', some x) => Event.freed x.id :: eTrace s' ops
    | (s', none) => eTrace s' ops

/-- A delete is safe when it does not remove a record holding the
collection's current maximum id (equivalently: whenever some record
matches `i`, that id is strictly below the maximum). -/
def safeDel (s : List Expense) (i : Int) : Bool :=
  s.all (fun e => !(e.id == i)) || decide (i + 1 < get_next_id s)

/-- A request sequence is safe when every delete along the run is. -/
def safeOps : List Expense → List EOp → Bool
  | _, [] => true
  | s, EOp.ins n a c d :: ops => safeOps (add_expense_list s n a c d) ops
  | s, EOp.del i :: ops =>
    safeDel s i && safeOps (delete_expense_list s i).1 ops

/-- The ids handed out to inserts, in order. -/
def assignedOf : List Event → List Int :=
  List.filterMap fun ev =>
    match ev with
    | Event.assigned a => some a
    | Event.freed _ => none

/-- No id freed by a delete is handed out to a later insert. -/
def NoRefree : List Event → Prop
  | [] => True
  | Event.freed f :: tr => f ∉ assignedOf tr ∧ NoRefree tr
  | Event.assigned _ :: tr => NoRefree tr

/-- Invariant of safe runs: every later assigned id is at least `b`, each
assignment raises the bound past itself, and every freed id is below `b`. -/
def GoodFrom : Int → List Event → Prop
  | _, [] => True
  | b, Event.assigned a :: tr => b ≤ a ∧ GoodFrom (a + 1) tr
  | b, Event.freed f :: tr => f < b ∧ GoodFrom b tr

end Expenses

namespace Expenses

theorem get_next_id_ub (l : List Expense) : ∀ e ∈ l, e.id < get_next_id l := by
  intro e he
  exact nextIdOfIds_ub (l.map Expense.id) e.id (List.mem_map_of_mem Expense.id he)

theorem get_next_id_attained (l : List Expense) (h : l ≠ []) :
    ∃ e ∈ l, e.id + 1 = get_next_id l := by
  have hm : l.map Expense.id ≠ [] := by
    intro hh
    exact h (List.map_eq_nil_iff.mp hh)
  obtain ⟨x, hx, hxe⟩ := nextIdOfIds_attained (l.map Expense.id) hm
  obtain ⟨e, he, hei⟩ := List.mem_map.mp hx
  refine ⟨e, he, ?_⟩
  rw [hei]
  exact hxe

theorem get_next_id_eq_of (l : List Expense) (h : l ≠ []) (n : Int)
    (hub : ∀ e ∈ l, e.id < n) (hat : ∃ e ∈ l, e.id + 1 = n) :
    get_next_id l = n := by
  have hm : l.map Expense.id ≠ [] := by
    intro hh
    exact h (List.map_eq_nil_iff.mp hh)
  apply nextIdOfIds_eq_of (l.map Expense.id) hm n
  · intro x hx
    obtain ⟨e, he, hei⟩ := List.mem_map.mp hx
    rw [← hei]
    exact hub e he
  · obtain ⟨e, he, hen⟩ := hat
    exact ⟨e.id, List.mem_map_of_mem Expense.id he, hen⟩

/-- Appending a freshly numbered record raises the next id by exactly one. -/
theorem get_next_id_add (l : List Expense) (n : String) (a : ℚ) (c : String)
    (d : CalDate) :
    get_next_id (add_expense_list l n a c d) = get_next_id l + 1 := by
  apply get_next_id_eq_of
  · intro hh
    exact List.append_ne_nil_of_right_ne_nil l (List.cons_ne_nil _ _) hh
  · intro e he
    rcases List.mem_append.mp he with hl | hr
    · have := get_next_id_ub l e hl
      omega
    · rw [List.mem_singleton] at hr
      subst hr
      simp only
      omega
  · refine ⟨⟨get_next_id l, n, a, c, d, []⟩, ?_, rfl⟩
    exact List.mem_append_right l (List.mem_singleton.mpr rfl)

theorem delete_expense_list_not_found (l : List Expense) (i : Int)
    (h : ∀ x ∈ l, x.id ≠ i) : delete_expense_list l i = (l, none) := by
  induction l with
  | nil => rfl
  | cons a t ih =>
    rw [delete_expense_list]
    rw [if_neg (h a (List.mem_cons_self a t))]
    rw [ih (fun x hx => h x (List.mem_cons_of_mem a hx))]

theorem delete_expense_list_found (pre post : List Expense) (x : Expense) (i : Int)
    (hpre : ∀ e ∈ pre, e.id ≠ i) (hx : x.id = i) :
    delete_expense_list (pre ++ x :: post) i = (pre ++ post, some x) := by
  induction pre with
  | nil =>
    rw [List.nil_append, delete_expense_list, if_pos hx, List.nil_append]
  | cons a t ih =>
    rw [List.cons_append, delete_expense_list]
    rw [if_neg (hpre a (List.mem_cons_self a t))]
    rw [ih (fun e he => hpre e (List.mem_cons_of_mem a he))]
    rfl

theorem delete_expense_list_found_inv (l : List Expense) (i : Int) (x : Expense)
    (h : (delete_expense_list l i).2 = some x) :
    x.id = i ∧ ∃ pre post, l = pre ++ x :: post ∧ (∀ e ∈ pre, e.id ≠ i) ∧
      (delete_expense_list l i).1 = pre ++ post := by
  induction l with
  | nil => cases h
  | cons a t ih =>
    by_cases hai : a.id = i
    · rw [delete_expense_list, if_pos hai] at h ⊢
      cases h
      exact ⟨hai, [], t, rfl, fun e he => absurd he (List.not_mem_nil e), rfl⟩
    · rw [delete_expense_list, if_neg hai] at h ⊢
      obtain ⟨hxi, pre, post, hl, hpre, hfst⟩ := ih h
      refine ⟨hxi, a :: pre, post, by rw [List.cons_append, hl], ?_, ?_⟩
      · intro e he
        rcases List.mem_cons.mp he with hea | hep
        · subst hea
          exact hai
        · exact hpre e hep
      · rw [List.cons_append]
        simp only
        rw [hfst]

theorem delete_expense_list_none_fst (l : List Expense) (i : Int)
    (h : (delete_expense_list l i).2 = none) :
    (delete_expense_list l i).1 = l := by
  induction l with
  | nil => rfl
  | cons a t ih =>
    by_cases hai : a.id = i
    · rw [delete_expense_list, if_pos hai] at h
      cases h
    · rw [delete_expense_list, if_neg hai] at h ⊢
      simp only at h ⊢
      rw [ih h]

/-- Under a safe delete that removes a record, the maximum id survives,
so the recomputed next id is unchanged. -/
theorem get_next_id_safe_del (l : List Expense) (i : Int) (x : Expense)
    (h : (delete_expense_list l i).2 = some x)
    (hs : i + 1 < get_next_id l) :
    get_next_id ((delete_expense_list l i).1) = get_next_id l := by
  obtain ⟨hxi, pre, post, hl, _, hfst⟩ := delete_expense_list_found_inv l i x h
  have hlne : l ≠ [] := by
    rw [hl]
    exact List.append_ne_nil_of_right_ne_nil pre (List.cons_ne_nil x post)
  obtain ⟨e, he, hen⟩ := get_next_id_attained l hlne
  have hei : e.id ≠ i := by omega
  have hex : e ≠ x := fun hh => hei (by rw [hh, hxi])
  have hepp : e ∈ pre ++ post := by
    rw [hl] at he
    rcases List.mem_append.mp he with h1 | h2
    · exact List.mem_append_left post h1
    · rcases List.mem_cons.mp h2 with h3 | h4
      · exact absurd h3 hex
      · exact List.mem_append_right pre h4
  rw [hfst]
  apply get_next_id_eq_of
  · exact List.ne_nil_of_mem hepp
  · intro f hf
    apply get_next_id_ub l f
    rw [hl]
    rcases List.mem_append.mp hf with h1 | h2
    · exact List.mem_append_left _ h1
    · exact List.mem_append_right pre (List.mem_cons_of_mem x h2)
  · exact ⟨e, hepp, hen⟩

theorem safeDel_found (s : List Expense) (i : Int) (x : Expense)
    (hsafe : safeDel s i = true) (h : (delete_expense_list s i).2 = some x) :
    i + 1 < get_next_id s := by
  rw [safeDel, Bool.or_eq_true] at hsafe
  rcases hsafe with hall | hlt
  · exfalso
    rw [List.all_eq_true] at hall
    have : ∀ e ∈ s, e.id ≠ i := by
      intro e he
      have := hall e he
      simp only [Bool.not_eq_eq_eq_not, Bool.not_true, beq_eq_false_iff_ne] at this
      exact this
    rw [delete_expense_list_not_found s i this] at h
    cases h
  · exact of_decide_eq_true hlt

theorem assignedOf_assigned (a : Int) (tr : List Event) :
    assignedOf (Event.assigned a :: tr) = a :: assignedOf tr := rfl

theorem assignedOf_freed (f : Int) (tr : List Event) :
    assignedOf (Event.freed f :: tr) = assignedOf tr := rfl


theorem eTrace_ins (s : List Expense) (n : String) (a : ℚ) (c : String)
    (d : CalDate) (ops : List EOp) :
    eTrace s (EOp.ins n a c d :: ops) =
      Event.assigned (get_next_id s) :: eTrace (add_expense_list s n a c d) ops := rfl

theorem eTrace_del_some (s s' : List Expense) (i : Int) (x : Expense)
    (ops : List EOp) (h : delete_expense_list s i = (s', some x)) :
    eTrace s (EOp.del i :: ops) = Event.freed x.id :: eTrace s' ops := by
  have hm : eTrace s (EOp.del i :: ops) =
      (match delete_expense_list s i with
        | (s', some x) => Event.freed x.id :: eTrace s' ops
        | (s', none) => eTrace s' ops) := rfl
  rw [hm, h]

theorem eTrace_del_none (s s' : List Expense) (i : Int)
    (ops : List EOp) (h : delete_expense_list s i = (s', none)) :
    eTrace s (EOp.del i :: ops) = eTrace s' ops := by
  have hm : eTrace s (EOp.del i :: ops) =
      (match delete_expense_list s i with
        | (s', some x) => Event.freed x.id :: eTrace s' ops
        | (s', none) => eTrace s' ops) := rfl
  rw [hm, h]

/-- Safe runs generate a well-bounded event trace. -/
theorem goodFrom_eTrace : ∀ (ops : List EOp) (s : List Expense),
    safeOps s ops = true → GoodFrom (get_next_id s) (eTrace s ops) := by
  intro ops
  induction ops with
  | nil =>
    intro s _
    exact trivial
  | cons op ops ih =>
    intro s hsafe
    cases op with
    | ins n a c d =>
      rw [eTrace_ins]
      refine ⟨le_rfl, ?_⟩
      have := ih (add_expense_list s n a c d) hsafe
      rw [get_next_id_add s n a c d] at this
      exact this
    | del i =>
      have hsafe' : (safeDel s i && safeOps (delete_expense_list s i).1 ops) = true :=
        hsafe
      rw [Bool.and_eq_true] at hsafe'
      obtain ⟨hsd, hso⟩ := hsafe'
      rcases hdel : delete_expense_list s i with ⟨s', r⟩
      rw [hdel] at hso
      cases r with
      | none =>
        rw [eTrace_del_none s s' i ops hdel]
        have hfst : (delete_expense_list s i).1 = s :=
          delete_expense_list_none_fst s i (by rw [hdel])
        rw [hdel] at hfst
        simp only at hfst hso
        rw [← hfst]
        exact ih s' hso
      | some x =>
        rw [eTrace_del_some s s' i x ops hdel]
        have h2 : (delete_expense_list s i).2 = some x := by rw [hdel]
        have hxi : x.id = i := (delete_expense_list_found_inv s i x h2).1
        have hlt : i + 1 < get_next_id s := safeDel_found s i x hsd h2
        refine ⟨by omega, ?_⟩
        have hpres := get_next_id_safe_del s i x h2 hlt
        rw [hdel] at hpres
        simp only at hpres hso
        have := ih s' hso
        rw [hpres] at this
        exact this

/-- From a well-bounded trace: all assigned ids are at least the bound,
assigned ids are strictly increasing, and no freed id is reassigned. -/
theorem goodFrom_props : ∀ (tr : List Event) (b : Int), GoodFrom b tr →
    (∀ a ∈ assignedOf tr, b ≤ a) ∧
      List.Pairwise (· < ·) (assignedOf tr) ∧ NoRefree tr := by
  intro tr
  induction tr with
  | nil =>
    intro b _
    refine ⟨fun a ha => absurd ha (List.not_mem_nil a), List.Pairwise.nil, trivial⟩
  | cons ev tr ih =>
    intro b hg
    cases ev with
    | assigned a =>
      obtain ⟨hba, hg'⟩ := hg
      obtain ⟨hall, hpw, hnr⟩ := ih (a + 1) hg'
      rw [assignedOf_assigned]
      refine ⟨?_, ?_, hnr⟩
      · intro z hz
        rcases List.mem_cons.mp hz with hza | hzt
        · omega
        · have := hall z hzt
          omega
      · rw [List.pairwise_cons]
        refine ⟨fun z hz => ?_, hpw⟩
        have := hall z hz
        omega
    | freed f =>
      obtain ⟨hfb, hg'⟩ := hg
      obtain ⟨hall, hpw, hnr⟩ := ih b hg'
      rw [assignedOf_freed]
      refine ⟨hall, hpw, ?_, hnr⟩
      intro hf
      have := hall f hf
      omega

end Expenses

namespace Expenses

theorem CATEGORIES_nodup : CATEGORIES.Nodup := by decide

theorem updateCat_map : ∀ (L : List String), L.Nodup →
    ∀ (f : String → ℚ) (cat : String) (amt : ℚ), cat ∈ L →
    updateCat (L.map fun c => (c, f c)) cat amt =
      some (L.map fun c => (c, if c = cat then f c + amt else f c)) := by
  intro L
  induction L with
  | nil =>
    intro _ f cat amt hmem
    cases hmem
  | cons a t ih =>
    intro hnd f cat amt hmem
    rw [List.nodup_cons] at hnd
    rw [List.map_cons, List.map_cons, updateCat]
    by_cases hac : a = cat
    · simp only [if_pos hac]
      have ht : (t.map fun c => (c, if c = cat then f c + amt else f c)) =
          t.map fun c => (c, f c) := by
        apply List.map_congr_left
        intro c hc
        have hne : c ≠ cat := by
          intro hcc
          apply hnd.1
          rw [hac, ← hcc]
          exact hc
        rw [if_neg hne]
      rw [ht]
    · simp only [if_neg hac]
      have hct : cat ∈ t := by
        rcases List.mem_cons.mp hmem with h1 | h2
        · exact absurd h1.symm hac
        · exact h2
      rw [ih hnd.2 f cat amt hct]
      rfl

theorem catSum_cons_in (today : CalDate) (c : String) (e : Expense)
    (l : List Expense) (hsm : sameMonth today e = true) (hce : e.category = c) :
    catSum today c (e :: l) = e.amount + catSum today c l := by
  rw [catSum, catSum, List.filter_cons]
  rw [if_pos (by rw [hsm, hce]; simp)]
  rw [List.map_cons, List.sum_cons]

theorem catSum_cons_out (today : CalDate) (c : String) (e : Expense)
    (l : List Expense) (h : (sameMonth today e && decide (e.category = c)) = false) :
    catSum today c (e :: l) = catSum today c l := by
  rw [catSum, catSum, List.filter_cons]
  rw [if_neg (by rw [h]; exact Bool.false_ne_true)]

theorem monthTotal_cons_in (today : CalDate) (e : Expense) (l : List Expense)
    (hsm : sameMonth today e = true) :
    monthTotal today (e :: l) = e.amount + monthTotal today l := by
  rw [monthTotal, monthTotal, List.filter_cons]
  rw [if_pos hsm]
  rw [List.map_cons, List.sum_cons]

theorem monthTotal_cons_out (today : CalDate) (e : Expense) (l : List Expense)
    (hsm : sameMonth today e = false) :
    monthTotal today (e :: l) = monthTotal today l := by
  rw [monthTotal, monthTotal, List.filter_cons]
  rw [if_neg (by rw [hsm]; exact Bool.false_ne_true)]

/-- Invariant of the report loop: starting from per-category accumulators
`f` and running total `t`, the fold adds exactly the month-matching
amounts per category and in total, and never hits a `KeyError`, as long as
every record's category belongs to `CATEGORIES`. -/
theorem foldReport (today : CalDate) : ∀ (l : List Expense) (f : String → ℚ)
    (t : ℚ), (∀ e ∈ l, e.category ∈ CATEGORIES) →
    List.foldlM (reportStep today) ((CATEGORIES.map fun c => (c, f c)), t) l =
      some ((CATEGORIES.map fun c => (c, f c + catSum today c l)),
        t + monthTotal today l) := by
  intro l
  induction l with
  | nil =>
    intro f t _
    rw [List.foldlM_nil]
    simp [catSum, monthTotal]
  | cons e l ih =>
    intro f t hcat
    rw [List.foldlM_cons]
    by_cases hsm : sameMonth today e = true
    · rw [reportStep, if_pos hsm]
      simp only
      rw [updateCat_map CATEGORIES CATEGORIES_nodup f e.category e.amount
        (hcat e (List.mem_cons_self e l))]
      rw [Option.map_some']
      simp only [Option.bind_eq_bind, Option.some_bind]
      rw [ih (fun c => if c = e.category then f c + e.amount else f c)
        (t + e.amount) (fun x hx => hcat x (List.mem_cons_of_mem e hx))]
      have hmap : (CATEGORIES.map fun c =>
            (c, (if c = e.category then f c + e.amount else f c) + catSum today c l)) =
          CATEGORIES.map fun c => (c, f c + catSum today c (e :: l)) := by
        apply List.map_congr_left
        intro c _
        by_cases hce : c = e.category
        · rw [if_pos hce]
          rw [catSum_cons_in today c e l hsm hce.symm]
          rw [Prod.mk.injEq]
          exact ⟨rfl, by ring⟩
        · rw [if_neg hce]
          rw [catSum_cons_out today c e l]
          rw [Bool.and_eq_false_iff]
          right
          rw [decide_eq_false_iff_not]
          exact fun hh => hce hh.symm
      have htot : t + e.amount + monthTotal today l = t + monthTotal today (e :: l) := by
        rw [monthTotal_cons_in today e l hsm]
        ring
      rw [hmap, htot]
    · have hsm' : sameMonth today e = false := Bool.eq_false_iff.mpr hsm
      rw [reportStep, if_neg hsm]
      simp only [Option.bind_eq_bind, Option.some_bind]
      rw [ih f t (fun x hx => hcat x (List.mem_cons_of_mem e hx))]
      have hmap : (CATEGORIES.map fun c => (c, f c + catSum today c l)) =
          CATEGORIES.map fun c => (c, f c + catSum today c (e :: l)) := by
        apply List.map_congr_left
        intro c _
        rw [catSum_cons_out today c e l]
        rw [Bool.and_eq_false_iff]
        left
        exact hsm'
      have htot : t + monthTotal today l = t + monthTotal today (e :: l) := by
        rw [monthTotal_cons_out today e l hsm']
      rw [hmap, htot]

end Expenses

namespace Tasks

/-- Python's default `str.strip()` whitespace set on ASCII input. -/
def isWs (c : Char) : Bool :=
  c == ' ' || c == '\t' || c == '\n' || c == '\r' || c == '\x0b' || c == '\x0c'

/-- `input().strip()` on the raw line: drop leading and trailing
whitespace characters. -/
def pyStrip (s : String) : String :=
  String.mk (((s.data.dropWhile isWs).reverse.dropWhile isWs).reverse)

/-- Program state of `To-Do_List_Application.py`: tasks are plain strings;
`file` is the decoded content of `tasks.json`. -/
structure TState where
  mem : List String
  file : List String
  writes : Nat
deriving DecidableEq, Repr

/-- `save_tasks`: serialize the whole in-memory list over the file. -/
def save_tasks (s : TState) : TState :=
  { s with file := s.mem, writes := s.writes + 1 }

/-- `add_task` with the raw prompted line as argument: reject a name that
is empty after stripping (no mutation, no save), else append and persist. -/
def add_task (s : TState) (raw : String) : TState :=
  let new_task := pyStrip raw
  if new_task = "" then s
  else save_tasks { s with mem := s.mem ++ [new_task] }

/-- Python's `list.pop(index)`: negative indices address from the end;
an index out of `[-len, len)` raises `IndexError` (`none`). -/
def pop_list (l : List String) (index : Int) : Option (String × List String) :=
  let i : Int := if index < 0 then index + l.length else index
  if 0 ≤ i ∧ i < (l.length : Int) then
    (l.get? i.toNat).map (fun x => (x, l.eraseIdx i.toNat))
  else none

/-- `remove_task`: `tasks.pop(index)` followed by `save_tasks`; `none`
models the propagated `IndexError`. -/
def remove_task (s : TState) (index : Int) : Option (TState × String) :=
  (pop_list s.mem index).map fun p => (save_tasks { s with mem := p.2 }, p.1)

/-- `clear_list`: empty the list and persist the empty list. -/
def clear_list (s : TState) : TState :=
  save_tasks { s with mem := [] }

/-- The removal flow of `main`: the user's 1-based number is shifted to a
0-based index, guarded by `0 <= index < len(tasks)`; only in-range indices
reach `remove_task`, anything else reports invalid and changes nothing. -/
def main_remove (s : TState) (selected_choice : Int) : TState × Option String :=
  let index := selected_choice - 1
  if 0 ≤ index ∧ index < (s.mem.length : Int) then
    match remove_task s index with
    | some (s', r) => (s', some r)
    | none => (s, none)
  else (s, none)

end Tasks

namespace Habits

theorem habit_next_id_ub (l : List Habit) : ∀ x ∈ l, x.id < get_next_id l := by
  intro x hx
  exact nextIdOfIds_ub (l.map Habit.id) x.id (List.mem_map_of_mem Habit.id hx)

theorem habit_next_id_attained (l : List Habit) (h : l ≠ []) :
    ∃ x ∈ l, x.id + 1 = get_next_id l := by
  have hm : l.map Habit.id ≠ [] := by
    intro hh
    exact h (List.map_eq_nil_iff.mp hh)
  obtain ⟨x, hx, hxe⟩ := nextIdOfIds_attained (l.map Habit.id) hm
  obtain ⟨e, he, hei⟩ := List.mem_map.mp hx
  refine ⟨e, he, ?_⟩
  rw [hei]
  exact hxe

end Habits

/-- C2: `get_streak` counts consecutive calendar days walking backward from
`today`: every day inspected within the count has a completion and the day
right after the counted run does not (the walk stops at the first missing
day); a missing `today` gives 0, an empty completion set gives 0, the sets
`{today, today-1, today-2}` and `{today-1, today-2}` give 3 and 0, and the
backward walk is calendar-correct across month and year boundaries
(checked concretely across a leap-year February). -/
theorem get_streak_spec :
    (∀ (today : CalDate) (hb : Habits.Habit),
      (∀ k, k < Habits.get_streak today hb →
        predIter k today ∈ hb.completed_dates) ∧
        predIter (Habits.get_streak today hb) today ∉ hb.completed_dates) ∧
    (∀ (today : CalDate) (hb : Habits.Habit), today ∉ hb.completed_dates →
      Habits.get_streak today hb = 0) ∧
    (∀ (today cr : CalDate) (i : Int) (nm : String),
      Habits.get_streak today ⟨i, nm, cr, []⟩ = 0) ∧
    (∀ (today cr : CalDate) (i : Int) (nm : String),
      Habits.get_streak today
        ⟨i, nm, cr, [today, predDate today, predDate (predDate today)]⟩ = 3) ∧
    (∀ (today cr : CalDate) (i : Int) (nm : String),
      Habits.get_streak today
        ⟨i, nm, cr, [predDate today, predDate (predDate today)]⟩ = 0) ∧
    Habits.get_streak ⟨2024, 3, 1⟩
      ⟨1, "water", ⟨2024, 2, 1⟩, [⟨2024, 3, 1⟩, ⟨2024, 2, 29⟩, ⟨2024, 2, 28⟩]⟩ = 3 := by
  refine ⟨?_, ?_, ?_, ?_, ?_, ?_⟩
  · intro today hb
    exact streakAux_spec hb.completed_dates today
  · intro today hb hmem
    exact streakAux_of_not_mem _ _ hmem
  · intro today cr i nm
    exact streakAux_of_not_mem _ _ (List.not_mem_nil today)
  · intro today cr i nm
    show streakAux [today, predDate today, predDate (predDate today)] today = 3
    have hm0 : today ∈ [today, predDate today, predDate (predDate today)] :=
      List.mem_cons_self _ _
    have hm1 : predDate today ∈ [today, predDate today, predDate (predDate today)] :=
      List.mem_cons_of_mem _ (List.mem_cons_self _ _)
    have hm2 : predDate (predDate today) ∈
        [today, predDate today, predDate (predDate today)] :=
      List.mem_cons_of_mem _ (List.mem_cons_of_mem _ (List.mem_cons_self _ _))
    have hm3 : predDate (predDate (predDate today)) ∉
        [today, predDate today, predDate (predDate today)] := by
      intro hm
      rcases List.mem_cons.mp hm with h1 | hm'
      · exact predIter_injOn today (by omega : (3 : Nat) ≠ 0) h1
      rcases List.mem_cons.mp hm' with h2 | hm''
      · exact predIter_injOn today (by omega : (3 : Nat) ≠ 1) h2
      rcases List.mem_cons.mp hm'' with h3 | hm'''
      · exact predIter_injOn today (by omega : (3 : Nat) ≠ 2) h3
      · exact List.not_mem_nil _ hm'''
    rw [streakAux_of_mem _ _ hm0, streakAux_of_mem _ _ hm1,
      streakAux_of_mem _ _ hm2, streakAux_of_not_mem _ _ hm3]
  · intro today cr i nm
    show streakAux [predDate today, predDate (predDate today)] today = 0
    apply streakAux_of_not_mem
    intro hm
    rcases List.mem_cons.mp hm with h1 | hm'
    · exact predIter_injOn today (by omega : (0 : Nat) ≠ 1) h1
    rcases List.mem_cons.mp hm' with h2 | hm''
    · exact predIter_injOn today (by omega : (0 : Nat) ≠ 2) h2
    · exact List.not_mem_nil _ hm''
  · show streakAux [⟨2024, 3, 1⟩, ⟨2024, 2, 29⟩, ⟨2024, 2, 28⟩] ⟨2024, 3, 1⟩ = 3
    rw [streakAux_of_mem _ _ (by decide), streakAux_of_mem _ _ (by decide),
      streakAux_of_mem _ _ (by decide), streakAux_of_not_mem _ _ (by decide)]

/-- Witness for `get_streak_spec`: a habit whose completion set misses the
reference day has streak 0. -/
theorem get_streak_spec_witness :
    Habits.get_streak ⟨2024, 5, 2⟩ ⟨1, "run", ⟨2024, 1, 1⟩, [⟨2024, 5, 1⟩]⟩ = 0 :=
  get_streak_spec.2.1 ⟨2024, 5, 2⟩ ⟨1, "run", ⟨2024, 1, 1⟩, [⟨2024, 5, 1⟩]⟩
    (by decide)

/-- C4: `delete_expense` / `delete_habit` scan in order, remove the first
record whose id matches, persist the shortened list (one rewrite) and
return the removed record; with no match they return the `None` sentinel
and leave the in-memory list, the file and the write count unchanged. -/
theorem removeById_first_match_spec :
    (∀ (s : Expenses.EState) (i : Int), (∀ e ∈ s.mem, e.id ≠ i) →
      Expenses.delete_expense s i = (s, none)) ∧
    (∀ (s : Expenses.EState) (i : Int) (pre post : List Expenses.Expense)
      (x : Expenses.Expense), s.mem = pre ++ x :: post →
      (∀ e ∈ pre, e.id ≠ i) → x.id = i →
      Expenses.delete_expense s i =
        (⟨pre ++ post, pre ++ post, s.writes + 1⟩, some x)) ∧
    (∀ (s : Habits.HState) (i : Int), (∀ x ∈ s.mem, x.id ≠ i) →
      Habits.delete_habit s i = (s, none)) ∧
    (∀ (s : Habits.HState) (i : Int) (pre post : List Habits.Habit)
      (x : Habits.Habit), s.mem = pre ++ x :: post →
      (∀ e ∈ pre, e.id ≠ i) → x.id = i →
      Habits.delete_habit s i =
        (⟨pre ++ post, pre ++ post, s.writes + 1⟩, some x)) := by
  refine ⟨?_, ?_, ?_, ?_⟩
  · intro s i hno
    have hd := Expenses.delete_expense_list_not_found s.mem i hno
    simp only [Expenses.delete_expense, hd]
  · intro s i pre post x hm hpre hx
    have hd : Expenses.delete_expense_list s.mem i = (pre ++ post, some x) := by
      rw [hm]
      exact Expenses.delete_expense_list_found pre post x i hpre hx
    simp only [Expenses.delete_expense, Expenses.save_to_expense, hd]
  · intro s i hno
    have hd := Habits.delete_habit_list_not_found s.mem i hno
    simp only [Habits.delete_habit, hd]
  · intro s i pre post x hm hpre hx
    have hd : Habits.delete_habit_list s.mem i = (pre ++ post, some x) := by
      rw [hm]
      exact Habits.delete_habit_list_found pre post x i hpre hx
    simp only [Habits.delete_habit, Habits.save_habits, hd]

/-- Witness for `removeById_first_match_spec` on concrete one-element
stores: a missing id is a no-op returning `none`; the present id removes
and persists. -/
theorem removeById_first_match_spec_witness :
    Expenses.delete_expense
        ⟨[⟨1, "a", 5, "Food", ⟨2024, 1, 2⟩, []⟩],
          [⟨1, "a", 5, "Food", ⟨2024, 1, 2⟩, []⟩], 0⟩ 2 =
      (⟨[⟨1, "a", 5, "Food", ⟨2024, 1, 2⟩, []⟩],
          [⟨1, "a", 5, "Food", ⟨2024, 1, 2⟩, []⟩], 0⟩, none) ∧
    Expenses.delete_expense
        ⟨[⟨1, "a", 5, "Food", ⟨2024, 1, 2⟩, []⟩],
          [⟨1, "a", 5, "Food", ⟨2024, 1, 2⟩, []⟩], 0⟩ 1 =
      (⟨[], [], 1⟩, some ⟨1, "a", 5, "Food", ⟨2024, 1, 2⟩, []⟩) ∧
    Habits.delete_habit ⟨[⟨3, "run", ⟨2024, 1, 1⟩, []⟩],
        [⟨3, "run", ⟨2024, 1, 1⟩, []⟩], 0⟩ 4 =
      (⟨[⟨3, "run", ⟨2024, 1, 1⟩, []⟩], [⟨3, "run", ⟨2024, 1, 1⟩, []⟩], 0⟩, none) ∧
    Habits.delete_habit ⟨[⟨3, "run", ⟨2024, 1, 1⟩, []⟩],
        [⟨3, "run", ⟨2024, 1, 1⟩, []⟩], 0⟩ 3 =
      (⟨[], [], 1⟩, some ⟨3, "run", ⟨2024, 1, 1⟩, []⟩) := by
  refine ⟨?_, ?_, ?_, ?_⟩
  · exact removeById_first_match_spec.1 _ 2 (by decide)
  · exact removeById_first_match_spec.2.1 _ 1 [] []
      ⟨1, "a", 5, "Food", ⟨2024, 1, 2⟩, []⟩ rfl (by simp) rfl
  · exact removeById_first_match_spec.2.2.1 _ 4 (by decide)
  · exact removeById_first_match_spec.2.2.2 _ 3 [] []
      ⟨3, "run", ⟨2024, 1, 1⟩, []⟩ rfl (by simp) rfl

/-- C5: on a habit already marked for the day (the first habit the scan
finds with the given id), `mark_complete` reports `False` — distinct from
the newly-recorded `True` and the not-found `None` — leaves the whole
program state (list, file, write count) unchanged, and never introduces a
duplicate completion date: per-habit `Nodup` completion lists are
preserved by every call. -/
theorem mark_complete_idempotent_spec :
    (∀ (s : Habits.HState) (i : Int) (today : CalDate)
      (pre post : List Habits.Habit) (x : Habits.Habit),
      s.mem = pre ++ x :: post → (∀ e ∈ pre, e.id ≠ i) → x.id = i →
      today ∈ x.completed_dates →
      Habits.mark_complete s i today = (s, some false)) ∧
    ((some false : Option Bool) ≠ some true ∧
      (some false : Option Bool) ≠ none) ∧
    (∀ (s : Habits.HState) (i : Int) (today : CalDate),
      (∀ x ∈ s.mem, x.completed_dates.Nodup) →
      ∀ x ∈ (Habits.mark_complete s i today).1.mem, x.completed_dates.Nodup) := by
  refine ⟨?_, ⟨by decide, by decide⟩, ?_⟩
  · intro s i today pre post x hm hpre hx htoday
    have hd : Habits.mark_complete_list s.mem i today = (s.mem, some false) := by
      rw [hm]
      exact Habits.mark_complete_list_already pre post x i today hpre hx htoday
    simp only [Habits.mark_complete, hd]
  · intro s i today hnd
    have hprop := Habits.mark_complete_list_nodup s.mem i today hnd
    rcases hd : Habits.mark_complete_list s.mem i today with ⟨l', r⟩
    rw [hd] at hprop
    match r with
    | none =>
      simp only [Habits.mark_complete, hd]
      exact hnd
    | some false =>
      simp only [Habits.mark_complete, hd]
      exact hnd
    | some true =>
      simp only [Habits.mark_complete, hd, Habits.save_habits]
      exact hprop

/-- Witness for `mark_complete_idempotent_spec`: marking an
already-recorded day on a concrete store reports `False` and changes
nothing. -/
theorem mark_complete_idempotent_spec_witness :
    Habits.mark_complete
        ⟨[⟨1, "run", ⟨2024, 1, 1⟩, [⟨2024, 5, 1⟩]⟩],
          [⟨1, "run", ⟨2024, 1, 1⟩, [⟨2024, 5, 1⟩]⟩], 0⟩ 1 ⟨2024, 5, 1⟩ =
      (⟨[⟨1, "run", ⟨2024, 1, 1⟩, [⟨2024, 5, 1⟩]⟩],
          [⟨1, "run", ⟨2024, 1, 1⟩, [⟨2024, 5, 1⟩]⟩], 0⟩, some false) :=
  mark_complete_idempotent_spec.1 _ 1 ⟨2024, 5, 1⟩ [] []
    ⟨1, "run", ⟨2024, 1, 1⟩, [⟨2024, 5, 1⟩]⟩ rfl (by simp) rfl (by decide)

/-- C10: `mark_complete` with an id matching no habit returns `None`,
distinct from both recorded outcomes, and leaves the list, every habit's
completion dates, the persisted file and the write count unchanged
(no save happens). -/
theorem mark_complete_not_found_spec :
    (∀ (s : Habits.HState) (i : Int) (today : CalDate),
      (∀ x ∈ s.mem, x.id ≠ i) →
      Habits.mark_complete s i today = (s, none)) ∧
    ((none : Option Bool) ≠ some true) ∧
    ((none : Option Bool) ≠ some false) := by
  refine ⟨?_, by decide, by decide⟩
  intro s i today hno
  have hd := Habits.mark_complete_list_not_found s.mem i today hno
  simp only [Habits.mark_complete, hd]

/-- Witness for `mark_complete_not_found_spec` on a concrete store. -/
theorem mark_complete_not_found_spec_witness :
    Habits.mark_complete
        ⟨[⟨1, "run", ⟨2024, 1, 1⟩, [⟨2024, 5, 1⟩]⟩],
          [⟨1, "run", ⟨2024, 1, 1⟩, [⟨2024, 5, 1⟩]⟩], 0⟩ 7 ⟨2024, 5, 1⟩ =
      (⟨[⟨1, "run", ⟨2024, 1, 1⟩, [⟨2024, 5, 1⟩]⟩],
          [⟨1, "run", ⟨2024, 1, 1⟩, [⟨2024, 5, 1⟩]⟩], 0⟩, none) :=
  mark_complete_not_found_spec.1 _ 7 ⟨2024, 5, 1⟩ (by decide)

/-- C9: `add_task` rejects a task whose name strips to the empty string —
the list, the file and the write count stay exactly as they were — and
appends any non-empty stripped name, persisting it with one rewrite. -/
theorem add_task_empty_reject_spec :
    (∀ (s : Tasks.TState) (raw : String), Tasks.pyStrip raw = "" →
      Tasks.add_task s raw = s) ∧
    (∀ (s : Tasks.TState) (raw : String), Tasks.pyStrip raw ≠ "" →
      Tasks.add_task s raw =
        ⟨s.mem ++ [Tasks.pyStrip raw], s.mem ++ [Tasks.pyStrip raw],
          s.writes + 1⟩) := by
  constructor
  · intro s raw h
    simp only [Tasks.add_task]
    rw [if_pos h]
  · intro s raw h
    simp only [Tasks.add_task]
    rw [if_neg h]
    rfl

/-- Witness for `add_task_empty_reject_spec`: whitespace-only input is
rejected without touching the store; a real name is appended stripped. -/
theorem add_task_empty_reject_spec_witness :
    Tasks.add_task ⟨["a"], ["a"], 0⟩ "   " = ⟨["a"], ["a"], 0⟩ ∧
    Tasks.add_task ⟨[], [], 0⟩ " buy milk " =
      ⟨["buy milk"], ["buy milk"], 1⟩ := by
  constructor
  · exact add_task_empty_reject_spec.1 ⟨["a"], ["a"], 0⟩ "   " (by decide)
  · have h := add_task_empty_reject_spec.2 ⟨[], [], 0⟩ " buy milk " (by decide)
    rw [h]
    decide

/-- C6: the to-do removal flow (1-based user number, `main`'s
`0 <= index < len(tasks)` guard, then `remove_task` = `pop` + save): any
number whose 0-based index is out of `[0, len)` is rejected with the store,
file and write count untouched; an in-range index removes exactly the task
at that position, returns it, and persists the shortened list. -/
theorem remove_task_flow_spec :
    (∀ (s : Tasks.TState) (n : Int),
      ¬ (0 ≤ n - 1 ∧ n - 1 < (s.mem.length : Int)) →
      Tasks.main_remove s n = (s, none)) ∧
    (∀ (s : Tasks.TState) (n : Int)
      (h : 0 ≤ n - 1 ∧ n - 1 < (s.mem.length : Int)),
      Tasks.main_remove s n =
        (⟨s.mem.eraseIdx (n - 1).toNat, s.mem.eraseIdx (n - 1).toNat,
            s.writes + 1⟩,
          some (s.mem.get ⟨(n - 1).toNat, by omega⟩))) := by
  constructor
  · intro s n h
    simp only [Tasks.main_remove]
    rw [if_neg h]
  · intro s n h
    have hp : Tasks.pop_list s.mem (n - 1) =
        some (s.mem.get ⟨(n - 1).toNat, by omega⟩,
          s.mem.eraseIdx (n - 1).toNat) := by
      simp only [Tasks.pop_list]
      rw [if_neg (by omega : ¬ (n - 1 < 0))]
      rw [if_pos h]
      rw [List.get?_eq_get (by omega : (n - 1).toNat < s.mem.length)]
      rw [Option.map_some']
    simp only [Tasks.main_remove]
    rw [if_pos h]
    simp only [Tasks.remove_task, hp, Option.map_some', Tasks.save_tasks]

/-- Witness for `remove_task_flow_spec`: number 1 removes the first of two
tasks and persists; number 3 (and 0) are rejected unchanged. -/
theorem remove_task_flow_spec_witness :
    Tasks.main_remove ⟨["a", "b"], ["a", "b"], 0⟩ 1 =
      (⟨["b"], ["b"], 1⟩, some "a") ∧
    Tasks.main_remove ⟨["a", "b"], ["a", "b"], 0⟩ 3 =
      (⟨["a", "b"], ["a", "b"], 0⟩, none) ∧
    Tasks.main_remove ⟨["a", "b"], ["a", "b"], 0⟩ 0 =
      (⟨["a", "b"], ["a", "b"], 0⟩, none) := by
  refine ⟨?_, ?_, ?_⟩
  · have h := remove_task_flow_spec.2 ⟨["a", "b"], ["a", "b"], 0⟩ 1 (by decide)
    rw [h]
    rfl
  · exact remove_task_flow_spec.1 ⟨["a", "b"], ["a", "b"], 0⟩ 3 (by decide)
  · exact remove_task_flow_spec.1 ⟨["a", "b"], ["a", "b"], 0⟩ 0 (by decide)

/-- C7: every successful mutating operation of all three programs —
insert, found delete, clear, newly-recorded completion, accepted task add,
in-range positional removal — ends with the persisted file equal to the
new in-memory list and exactly one more full-file rewrite; clearing (also
of an already-empty store) always writes the (empty) list. -/
theorem mutations_persist_spec :
    (∀ (s : Expenses.EState) (nm : String) (a : ℚ) (c : String) (d : CalDate),
      (Expenses.add_expense s nm a c d).file = (Expenses.add_expense s nm a c d).mem ∧
        (Expenses.add_expense s nm a c d).writes = s.writes + 1) ∧
    (∀ (s s' : Expenses.EState) (i : Int) (x : Expenses.Expense),
      Expenses.delete_expense s i = (s', some x) →
      s'.file = s'.mem ∧ s'.writes = s.writes + 1) ∧
    (∀ s : Expenses.EState,
      (Expenses.clear_all_expense s).file = (Expenses.clear_all_expense s).mem ∧
        (Expenses.clear_all_expense s).mem = [] ∧
        (Expenses.clear_all_expense s).writes = s.writes + 1) ∧
    (∀ (s : Habits.HState) (nm : String) (d : CalDate),
      (Habits.add_habit s nm d).file = (Habits.add_habit s nm d).mem ∧
        (Habits.add_habit s nm d).writes = s.writes + 1) ∧
    (∀ (s s' : Habits.HState) (i : Int) (x : Habits.Habit),
      Habits.delete_habit s i = (s', some x) →
      s'.file = s'.mem ∧ s'.writes = s.writes + 1) ∧
    (∀ s : Habits.HState,
      (Habits.clear_habits s).file = (Habits.clear_habits s).mem ∧
        (Habits.clear_habits s).mem = [] ∧
        (Habits.clear_habits s).writes = s.writes + 1) ∧
    (∀ (s s' : Habits.HState) (i : Int) (today : CalDate),
      Habits.mark_complete s i today = (s', some true) →
      s'.file = s'.mem ∧ s'.writes = s.writes + 1) ∧
    (∀ (s : Tasks.TState) (raw : String), Tasks.pyStrip raw ≠ "" →
      (Tasks.add_task s raw).file = (Tasks.add_task s raw).mem ∧
        (Tasks.add_task s raw).writes = s.writes + 1) ∧
    (∀ (s s' : Tasks.TState) (idx : Int) (x : String),
      Tasks.remove_task s idx = some (s', x) →
      s'.file = s'.mem ∧ s'.writes = s.writes + 1) ∧
    (∀ s : Tasks.TState,
      (Tasks.clear_list s).file = (Tasks.clear_list s).mem ∧
        (Tasks.clear_list s).mem = [] ∧
        (Tasks.clear_list s).writes = s.writes + 1) := by
  refine ⟨?_, ?_, ?_, ?_, ?_, ?_, ?_, ?_, ?_, ?_⟩
  · intro s nm a c d
    exact ⟨rfl, rfl⟩
  · intro s s' i x h
    rcases hd : Expenses.delete_expense_list s.mem i with ⟨l', r⟩
    match r with
    | none =>
      simp only [Expenses.delete_expense, hd] at h
      rw [Prod.mk.injEq] at h
      exact Option.noConfusion h.2
    | some y =>
      simp only [Expenses.delete_expense, hd] at h
      rw [Prod.mk.injEq] at h
      rw [← h.1]
      exact ⟨rfl, rfl⟩
  · intro s
    exact ⟨rfl, rfl, rfl⟩
  · intro s nm d
    exact ⟨rfl, rfl⟩
  · intro s s' i x h
    rcases hd : Habits.delete_habit_list s.mem i with ⟨l', r⟩
    match r with
    | none =>
      simp only [Habits.delete_habit, hd] at h
      rw [Prod.mk.injEq] at h
      exact Option.noConfusion h.2
    | some y =>
      simp only [Habits.delete_habit, hd] at h
      rw [Prod.mk.injEq] at h
      rw [← h.1]
      exact ⟨rfl, rfl⟩
  · intro s
    exact ⟨rfl, rfl, rfl⟩
  · intro s s' i today h
    rcases hd : Habits.mark_complete_list s.mem i today with ⟨l', r⟩
    match r with
    | none =>
      simp only [Habits.mark_complete, hd] at h
      rw [Prod.mk.injEq] at h
      exact Option.noConfusion h.2
    | some false =>
      simp only [Habits.mark_complete, hd] at h
      rw [Prod.mk.injEq] at h
      exact Bool.noConfusion (Option.some.inj h.2)
    | some true =>
      simp only [Habits.mark_complete, hd] at h
      rw [Prod.mk.injEq] at h
      rw [← h.1]
      exact ⟨rfl, rfl⟩
  · intro s raw h
    simp only [Tasks.add_task]
    rw [if_neg h]
    exact ⟨rfl, rfl⟩
  · intro s s' idx x h
    rcases hp : Tasks.pop_list s.mem idx with _ | p
    · simp only [Tasks.remove_task, hp, Option.map_none'] at h
      exact Option.noConfusion h
    · simp only [Tasks.remove_task, hp, Option.map_some'] at h
      rw [Option.some.injEq, Prod.mk.injEq] at h
      rw [← h.1]
      exact ⟨rfl, rfl⟩
  · intro s
    exact ⟨rfl, rfl, rfl⟩

/-- Witness for `mutations_persist_spec`: its conditional clauses applied
to concrete successful operations. -/
theorem mutations_persist_spec_witness :
    ((⟨[], [], 1⟩ : Expenses.EState).file = (⟨[], [], 1⟩ : Expenses.EState).mem ∧
      (⟨[], [], 1⟩ : Expenses.EState).writes = 0 + 1) ∧
    ((⟨[], [], 1⟩ : Habits.HState).file = (⟨[], [], 1⟩ : Habits.HState).mem ∧
      (⟨[], [], 1⟩ : Habits.HState).writes = 0 + 1) ∧
    ((⟨[⟨3, "run", ⟨2024, 1, 1⟩, [⟨2024, 5, 1⟩]⟩],
        [⟨3, "run", ⟨2024, 1, 1⟩, [⟨2024, 5, 1⟩]⟩], 1⟩ : Habits.HState).file =
      (⟨[⟨3, "run", ⟨2024, 1, 1⟩, [⟨2024, 5, 1⟩]⟩],
        [⟨3, "run", ⟨2024, 1, 1⟩, [⟨2024, 5, 1⟩]⟩], 1⟩ : Habits.HState).mem ∧
      (⟨[⟨3, "run", ⟨2024, 1, 1⟩, [⟨2024, 5, 1⟩]⟩],
        [⟨3, "run", ⟨2024, 1, 1⟩, [⟨2024, 5, 1⟩]⟩], 1⟩ : Habits.HState).writes = 0 + 1) ∧
    ((Tasks.add_task ⟨[], [], 0⟩ "x").file = (Tasks.add_task ⟨[], [], 0⟩ "x").mem ∧
      (Tasks.add_task ⟨[], [], 0⟩ "x").writes = 0 + 1) ∧
    ((⟨["b"], ["b"], 1⟩ : Tasks.TState).file = (⟨["b"], ["b"], 1⟩ : Tasks.TState).mem ∧
      (⟨["b"], ["b"], 1⟩ : Tasks.TState).writes = 0 + 1) := by
  refine ⟨?_, ?_, ?_, ?_, ?_⟩
  · exact mutations_persist_spec.2.1
      ⟨[⟨1, "a", 5, "Food", ⟨2024, 1, 2⟩, []⟩],
        [⟨1, "a", 5, "Food", ⟨2024, 1, 2⟩, []⟩], 0⟩
      ⟨[], [], 1⟩ 1 ⟨1, "a", 5, "Food", ⟨2024, 1, 2⟩, []⟩ (by decide)
  · exact mutations_persist_spec.2.2.2.2.1
      ⟨[⟨3, "run", ⟨2024, 1, 1⟩, []⟩], [⟨3, "run", ⟨2024, 1, 1⟩, []⟩], 0⟩
      ⟨[], [], 1⟩ 3 ⟨3, "run", ⟨2024, 1, 1⟩, []⟩ (by decide)
  · exact mutations_persist_spec.2.2.2.2.2.2.1
      ⟨[⟨3, "run", ⟨2024, 1, 1⟩, []⟩], [⟨3, "run", ⟨2024, 1, 1⟩, []⟩], 0⟩
      ⟨[⟨3, "run", ⟨2024, 1, 1⟩, [⟨2024, 5, 1⟩]⟩],
        [⟨3, "run", ⟨2024, 1, 1⟩, [⟨2024, 5, 1⟩]⟩], 1⟩ 3 ⟨2024, 5, 1⟩ (by decide)
  · exact mutations_persist_spec.2.2.2.2.2.2.2.1 ⟨[], [], 0⟩ "x" (by decide)
  · exact mutations_persist_spec.2.2.2.2.2.2.2.2.1
      ⟨["a", "b"], ["a", "b"], 0⟩ ⟨["b"], ["b"], 1⟩ 0 "a" (by decide)

/-- A concrete request sequence: insert, insert, delete id 2 (the current
maximum), insert. -/
def reuseOps : List Expenses.EOp :=
  [Expenses.EOp.ins "a" 1 "Food" ⟨2024, 1, 1⟩,
    Expenses.EOp.ins "b" 1 "Food" ⟨2024, 1, 1⟩,
    Expenses.EOp.del 2,
    Expenses.EOp.ins "c" 1 "Food" ⟨2024, 1, 1⟩]

/-- C1 counterexample: the claim's consequence fails as stated. Deleting
the record that holds the current maximum id lowers `get_next_id`, so the
run insert→1, insert→2, delete 2, insert assigns 1, 2, then 2 again: the
assigned ids are not strictly increasing and the freed id 2 is reassigned. -/
theorem get_next_id_reuses_freed_max_id :
    Expenses.eTrace [] reuseOps =
      [Expenses.Event.assigned 1, Expenses.Event.assigned 2,
        Expenses.Event.freed 2, Expenses.Event.assigned 2] ∧
    ¬ List.Pairwise (· < ·) (Expenses.assignedOf (Expenses.eTrace [] reuseOps)) ∧
    ¬ Expenses.NoRefree (Expenses.eTrace [] reuseOps) := by
  have he : Expenses.eTrace [] reuseOps =
      [Expenses.Event.assigned 1, Expenses.Event.assigned 2,
        Expenses.Event.freed 2, Expenses.Event.assigned 2] := rfl
  refine ⟨he, ?_, ?_⟩
  · rw [he]
    decide
  · rw [he]
    intro hnr
    exact hnr.1 (List.mem_cons_self 2 [])

/-- C1 (amended): `get_next_id` returns 1 on an empty collection and the
maximum existing id plus 1 otherwise (both trackers), recomputed from the
current contents; and for every request sequence from the empty store in
which no delete removes the record holding the current maximum id, the
assigned ids are strictly increasing and no freed id is ever reassigned. -/
theorem get_next_id_spec_and_safe_run_monotone :
    Expenses.get_next_id [] = 1 ∧
    (∀ l : List Expenses.Expense, l ≠ [] →
      (∀ e ∈ l, e.id < Expenses.get_next_id l) ∧
        ∃ e ∈ l, e.id + 1 = Expenses.get_next_id l) ∧
    Habits.get_next_id [] = 1 ∧
    (∀ l : List Habits.Habit, l ≠ [] →
      (∀ x ∈ l, x.id < Habits.get_next_id l) ∧
        ∃ x ∈ l, x.id + 1 = Habits.get_next_id l) ∧
    (∀ ops : List Expenses.EOp, Expenses.safeOps [] ops = true →
      List.Pairwise (· < ·) (Expenses.assignedOf (Expenses.eTrace [] ops)) ∧
        Expenses.NoRefree (Expenses.eTrace [] ops)) := by
  refine ⟨rfl, ?_, rfl, ?_, ?_⟩
  · intro l hl
    exact ⟨Expenses.get_next_id_ub l, Expenses.get_next_id_attained l hl⟩
  · intro l hl
    exact ⟨Habits.habit_next_id_ub l, Habits.habit_next_id_attained l hl⟩
  · intro ops hsafe
    have hg := Expenses.goodFrom_eTrace ops [] hsafe
    have hp := Expenses.goodFrom_props (Expenses.eTrace [] ops)
      (Expenses.get_next_id []) hg
    exact ⟨hp.2.1, hp.2.2⟩

/-- Witness for `get_next_id_spec_and_safe_run_monotone`: a safe concrete
run (the delete targets a non-maximal id) and concrete nonempty stores. -/
theorem get_next_id_spec_and_safe_run_monotone_witness :
    Expenses.safeOps []
        [Expenses.EOp.ins "a" 1 "Food" ⟨2024, 1, 1⟩,
          Expenses.EOp.ins "b" 1 "Food" ⟨2024, 1, 1⟩,
          Expenses.EOp.del 1,
          Expenses.EOp.ins "c" 1 "Food" ⟨2024, 1, 1⟩] = true ∧
    List.Pairwise (· < ·) (Expenses.assignedOf (Expenses.eTrace []
        [Expenses.EOp.ins "a" 1 "Food" ⟨2024, 1, 1⟩,
          Expenses.EOp.ins "b" 1 "Food" ⟨2024, 1, 1⟩,
          Expenses.EOp.del 1,
          Expenses.EOp.ins "c" 1 "Food" ⟨2024, 1, 1⟩])) ∧
    (∃ e ∈ [(⟨5, "x", 1, "Food", ⟨2024, 1, 1⟩, []⟩ : Expenses.Expense)],
      e.id + 1 = Expenses.get_next_id [⟨5, "x", 1, "Food", ⟨2024, 1, 1⟩, []⟩]) ∧
    (∃ x ∈ [(⟨5, "run", ⟨2024, 1, 1⟩, []⟩ : Habits.Habit)],
      x.id + 1 = Habits.get_next_id [⟨5, "run", ⟨2024, 1, 1⟩, []⟩]) := by
  refine ⟨by decide, ?_, ?_, ?_⟩
  · exact (get_next_id_spec_and_safe_run_monotone.2.2.2.2 _ (by decide)).1
  · exact (get_next_id_spec_and_safe_run_monotone.2.1 _
      (List.cons_ne_nil _ _)).2
  · exact (get_next_id_spec_and_safe_run_monotone.2.2.2.1 _
      (List.cons_ne_nil _ _)).2

/-- C3 counterexample: on an empty collection `view_monthly_report` takes
the early `"No expenses recorded yet."` return and produces no report at
all — in particular not the all-zero per-category report the claim
requires for every collection. -/
theorem view_monthly_report_empty_counterexample :
    Expenses.view_monthly_report ⟨2024, 3, 15⟩ [] = none ∧
    Expenses.view_monthly_report ⟨2024, 3, 15⟩ [] ≠
      some (Expenses.CATEGORIES.map fun c => (c, (0 : ℚ)), (0 : ℚ)) :=
  ⟨rfl, fun h => Option.noConfusion h⟩

/-- C3 (amended): for every non-empty expense collection whose categories
belong to the fixed enumeration, the report maps every category of
`CATEGORIES` — in enumeration order, categories with no matching record
included with total 0 — to the sum of the amounts of the records of the
reference month, plus the grand total over that month. -/
theorem view_monthly_report_totals_spec (today : CalDate)
    (l : List Expenses.Expense) (hne : l ≠ [])
    (hcat : ∀ e ∈ l, e.category ∈ Expenses.CATEGORIES) :
    Expenses.view_monthly_report today l =
      some ((Expenses.CATEGORIES.map fun c => (c, Expenses.catSum today c l)),
        Expenses.monthTotal today l) := by
  cases l with
  | nil => exact absurd rfl hne
  | cons e t =>
    have hv : Expenses.view_monthly_report today (e :: t) =
        List.foldlM (Expenses.reportStep today)
          ((Expenses.CATEGORIES.map fun c => (c, (0 : ℚ))), (0 : ℚ)) (e :: t) := rfl
    rw [hv]
    rw [Expenses.foldReport today (e :: t) (fun _ => 0) 0 hcat]
    simp only [zero_add]

/-- Witness for `view_monthly_report_totals_spec` on a concrete singleton
collection. -/
theorem view_monthly_report_totals_spec_witness :
    Expenses.view_monthly_report ⟨2024, 3, 15⟩
        [⟨1, "Rent", 100, "Housing", ⟨2024, 3, 2⟩, []⟩] =
      some ((Expenses.CATEGORIES.map fun c =>
          (c, Expenses.catSum ⟨2024, 3, 15⟩ c
            [⟨1, "Rent", 100, "Housing", ⟨2024, 3, 2⟩, []⟩])),
        Expenses.monthTotal ⟨2024, 3, 15⟩
          [⟨1, "Rent", 100, "Housing", ⟨2024, 3, 2⟩, []⟩]) :=
  view_monthly_report_totals_spec ⟨2024, 3, 15⟩
    [⟨1, "Rent", 100, "Housing", ⟨2024, 3, 2⟩, []⟩]
    (List.cons_ne_nil _ _) (by decide)

/-- The concrete March report and April report over one March record have
different grand totals (10 versus 0). -/
theorem view_clock_ne :
    Expenses.view_monthly_report ⟨2024, 3, 15⟩
        [⟨1, "Lunch", 10, "Food", ⟨2024, 3, 10⟩, []⟩] ≠
      Expenses.view_monthly_report ⟨2024, 4, 15⟩
        [⟨1, "Lunch", 10, "Food", ⟨2024, 3, 10⟩, []⟩] := by
  have h1 : Expenses.view_monthly_report ⟨2024, 3, 15⟩
      [⟨1, "Lunch", 10, "Food", ⟨2024, 3, 10⟩, []⟩] =
      some ((Expenses.CATEGORIES.map fun c =>
          (c, 0 + Expenses.catSum ⟨2024, 3, 15⟩ c
            [⟨1, "Lunch", 10, "Food", ⟨2024, 3, 10⟩, []⟩])),
        0 + Expenses.monthTotal ⟨2024, 3, 15⟩
          [⟨1, "Lunch", 10, "Food", ⟨2024, 3, 10⟩, []⟩]) :=
    Expenses.foldReport ⟨2024, 3, 15⟩
      [⟨1, "Lunch", 10, "Food", ⟨2024, 3, 10⟩, []⟩] (fun _ => 0) 0 (by decide)
  have h2 : Expenses.view_monthly_report ⟨2024, 4, 15⟩
      [⟨1, "Lunch", 10, "Food", ⟨2024, 3, 10⟩, []⟩] =
      some ((Expenses.CATEGORIES.map fun c =>
          (c, 0 + Expenses.catSum ⟨2024, 4, 15⟩ c
            [⟨1, "Lunch", 10, "Food", ⟨2024, 3, 10⟩, []⟩])),
        0 + Expenses.monthTotal ⟨2024, 4, 15⟩
          [⟨1, "Lunch", 10, "Food", ⟨2024, 3, 10⟩, []⟩]) :=
    Expenses.foldReport ⟨2024, 4, 15⟩
      [⟨1, "Lunch", 10, "Food", ⟨2024, 3, 10⟩, []⟩] (fun _ => 0) 0 (by decide)
  intro heq
  rw [h1, h2, Option.some.injEq, Prod.mk.injEq] at heq
  have ht := heq.2
  have hm1 : Expenses.monthTotal ⟨2024, 3, 15⟩
      [⟨1, "Lunch", 10, "Food", ⟨2024, 3, 10⟩, []⟩] = 10 := by
    simp [Expenses.monthTotal, Expenses.sameMonth]
  have hm2 : Expenses.monthTotal ⟨2024, 4, 15⟩
      [⟨1, "Lunch", 10, "Food", ⟨2024, 3, 10⟩, []⟩] = 0 := by
    simp [Expenses.monthTotal, Expenses.sameMonth]
  rw [hm1, hm2] at ht
  norm_num at ht

/-- C8 counterexample: the reference date is not an input of
`view_monthly_report` in the source — the function reads `date.today()`
itself — so with the caller's only input (the collection) fixed, the
report still varies with the wall-clock date. -/
theorem view_monthly_report_wall_clock_counterexample :
    Expenses.view_monthly_report ⟨2024, 3, 15⟩
        [⟨1, "Lunch", 10, "Food", ⟨2024, 3, 10⟩, []⟩] ≠
      Expenses.view_monthly_report ⟨2024, 4, 15⟩
        [⟨1, "Lunch", 10, "Food", ⟨2024, 3, 10⟩, []⟩] :=
  view_clock_ne

/-- C8 (amended): the reference date is read from the wall clock inside
`view_monthly_report` rather than supplied by the caller; the result is a
pure function of the pair (wall-clock date, collection) — so two runs with
the same collection under the same clock date agree — but it is not
determined by the collection alone. -/
theorem view_monthly_report_clock_determinism :
    (∀ (t1 t2 : CalDate) (l1 l2 : List Expenses.Expense), t1 = t2 → l1 = l2 →
      Expenses.view_monthly_report t1 l1 = Expenses.view_monthly_report t2 l2) ∧
    (∃ (t1 t2 : CalDate) (l : List Expenses.Expense),
      Expenses.view_monthly_report t1 l ≠ Expenses.view_monthly_report t2 l) := by
  constructor
  · intro t1 t2 l1 l2 h1 h2
    rw [h1, h2]
  · exact ⟨⟨2024, 3, 15⟩, ⟨2024, 4, 15⟩,
      [⟨1, "Lunch", 10, "Food", ⟨2024, 3, 10⟩, []⟩], view_clock_ne⟩

/-- Witness for `view_monthly_report_clock_determinism` at concrete equal
inputs. -/
theorem view_monthly_report_clock_determinism_witness :
    Expenses.view_monthly_report ⟨2024, 3, 15⟩
        [⟨1, "Lunch", 10, "Food", ⟨2024, 3, 10⟩, []⟩] =
      Expenses.view_monthly_report ⟨2024, 3, 15⟩
        [⟨1, "Lunch", 10, "Food", ⟨2024, 3, 10⟩, []⟩] :=
  view_monthly_report_clock_determinism.1 ⟨2024, 3, 15⟩ ⟨2024, 3, 15⟩
    [⟨1, "Lunch", 10, "Food", ⟨2024, 3, 10⟩, []⟩]
    [⟨1, "Lunch", 10, "Food", ⟨2024, 3, 10⟩, []⟩] rfl rfl
